import Mathlib

/-!
Verification of the `easy_lru_cache` repository: a bounded LRU store
(`lru` in the source) and a 2Q cache (`twoQueueCache` in `cache.go`)
built from three such stores.

The embedding mirrors the Go source:
* `interface{}` keys/values become `GoVal` (an integer, a string, or Go's
  `nil`, which is the zero value of an `interface{}` result).
* Go `error` results become `Option String` (`none` is the nil error), with
  the exact message strings of the source.
* `container/list` recency order becomes a `List (GoVal × GoVal)` whose head
  is the front (most recently used) element and whose last element is the
  back (least recently used) element.
* Go `float64` ratios become exact rationals.  The default ratio constants
  `0.20` and `0.80` are embedded as the exact values of those `float64`
  literals.  Go's `int(x)` conversion truncates toward zero; all products
  here are nonnegative, so it is `Rat.floor`.
* Go named results start at their zero values, and a `:=` inside an `if`
  initializer introduces fresh variables that shadow the named results.
  The source relies on named results in `lru.Peek` and `lru.Remove` while
  shadowing them, and the embedding reproduces the resulting behaviour.
-/

/-- A Go `interface{}` value as used by the repository's entry points:
integer keys/values, string keys, or the nil interface value. -/
inductive GoVal where
  | int : Int → GoVal
  | str : String → GoVal
  | null : GoVal
  deriving DecidableEq, Repr

/-- Keys of an association list (front of the recency list first). -/
def keysOf (xs : List (GoVal × GoVal)) : List GoVal :=
  xs.map Prod.fst

/-- Membership of a key, mirroring the `l.cache[key]` map lookup. -/
def hasKey (xs : List (GoVal × GoVal)) (k : GoVal) : Bool :=
  xs.any fun p => decide (p.1 = k)

/-- Value stored under a key, mirroring `l.cache[key]` followed by reading
`element.Value.(*lruItem).value`. -/
def findVal (xs : List (GoVal × GoVal)) (k : GoVal) : Option GoVal :=
  (xs.find? fun p => decide (p.1 = k)).map Prod.snd

/-- Removal of the list element holding key `k`, mirroring
`l.list.Remove(e)` + `delete(l.cache, entry.key)` on the element the map
points to (the first and, by the map invariant, only occurrence). -/
def eraseKey : List (GoVal × GoVal) → GoVal → List (GoVal × GoVal)
  | [], _ => []
  | p :: ps, k => if p.1 = k then ps else p :: eraseKey ps k

/-- The `lru` struct of the source: a fixed capacity plus the recency list
(the `cache` map is the derived key index and needs no separate field). -/
structure Lru where
  capacity : Int
  items : List (GoVal × GoVal)
  deriving DecidableEq, Repr

/-- `NewLRU` constructs an lru of the given size; it rejects a
non-positive capacity. -/
def NewLRU (capacity : Int) : Except String Lru :=
  if capacity ≤ 0 then .error "must provide a positive size"
  else .ok { capacity := capacity, items := [] }

/-- `lru.Get`: on a hit, move the element to the front
(`MoveBefore(element, l.list.Front())`) and return its value with a nil
error; on a miss return the zero value and the "not found" error. -/
def Lru.Get (l : Lru) (key : GoVal) : GoVal × Option String × Lru :=
  match l.items.find? (fun p => decide (p.1 = key)) with
  | none => (GoVal.null, some "not found in cache", l)
  | some p => (p.2, none, { l with items := p :: eraseKey l.items key })

/-- `lru.Put`: an existing key is moved to the front with its value
updated; a fresh key first evicts the back element when the list is at
capacity, then is pushed at the front.  The source's `err` result is
always nil. -/
def Lru.Put (l : Lru) (key value : GoVal) : Lru × Option String :=
  if hasKey l.items key then
    ({ l with items := (key, value) :: eraseKey l.items key }, none)
  else
    let base := if (l.items.length : Int) ≥ l.capacity then l.items.dropLast else l.items
    ({ l with items := (key, value) :: base }, none)

/-- `lru.Peek`: reads the value without touching the order.  The named
result `ok` is shadowed by the `:=` in the `if` initializer, so the
function always returns `false` in its second component; the first
component is the found value, or the nil interface when absent. -/
def Lru.Peek (l : Lru) (key : GoVal) : GoVal × Bool :=
  ((findVal l.items key).getD GoVal.null, false)

/-- `lru.Contains`: key membership; here the source assigns the named
result with `=`, so it is reported correctly. -/
def Lru.Contains (l : Lru) (key : GoVal) : Bool :=
  hasKey l.items key

/-- `lru.Remove`: deletes the element when the key is present.  The named
result `ok` is shadowed by the `:=` in the `if` initializer, so the
function always returns `false`. -/
def Lru.Remove (l : Lru) (key : GoVal) : Lru × Bool :=
  ({ l with items := eraseKey l.items key }, false)

/-- `lru.Len`: the length of the recency list. -/
def Lru.Len (l : Lru) : Int :=
  l.items.length

/-- `lru.RemoveOldest`: drops the back element when one exists; the `err`
result is always nil. -/
def Lru.RemoveOldest (l : Lru) : Lru × Option String :=
  ({ l with items := l.items.dropLast }, none)

/-- `lru.Keys`: the stored keys from oldest (back) to newest (front). -/
def Lru.Keys (l : Lru) : List GoVal :=
  l.items.reverse.map Prod.fst

/-- `lru.Purge`: clears all entries. -/
def Lru.Purge (l : Lru) : Lru :=
  { l with items := [] }

/-- The `twoQueueCache` struct of `cache.go` (the `lock` and the unused
`expiration` fields carry no sequential state; the lock discipline is
modelled separately below). -/
structure TwoQueueCache where
  size : Int
  recentSize : Int
  recent : Lru
  frequent : Lru
  recentEvict : Lru
  deriving DecidableEq, Repr

/-- `Default2QRecentRatio = 0.20`, embedded as the exact value of the
`float64` literal `0.20`. -/
def Default2QRecentRatio : ℚ := 3602879701896397 / 2 ^ 54

/-- `Default2QGhostEntries = 0.80`, embedded as the exact value of the
`float64` literal `0.80`. -/
def Default2QGhostEntries : ℚ := 3602879701896397 / 2 ^ 52

/-- `New2QParams` validates the parameters, derives
`recentSize = int(float64(size) * recentRatio)` and
`evictSize = int(float64(size) * ghostRatio)`, and allocates the three
stores: `recent` and `frequent` with capacity `size`, `recentEvict` with
capacity `evictSize`. -/
def New2QParams (size : Int) (recentRatio ghostRatio : ℚ) : Except String TwoQueueCache :=
  if size ≤ 0 then .error "invalid size"
  else if recentRatio < 0 ∨ recentRatio > 1 then .error "invalid recent ratio"
  else if ghostRatio < 0 ∨ ghostRatio > 1 then .error "invalid ghost ratio"
  else
    let recentSize : Int := ((size : ℚ) * recentRatio).floor
    let evictSize : Int := ((size : ℚ) * ghostRatio).floor
    match NewLRU size with
    | .error e => .error e
    | .ok recent =>
      match NewLRU size with
      | .error e => .error e
      | .ok frequent =>
        match NewLRU evictSize with
        | .error e => .error e
        | .ok recentEvict =>
          .ok { size := size, recentSize := recentSize, recent := recent,
                frequent := frequent, recentEvict := recentEvict }

/-- `New2Q`: substitutes the default ratios for a `0.0` argument and
delegates to `New2QParams`. -/
def New2Q (size : Int) (recentRation ghostEntries : ℚ) : Except String TwoQueueCache :=
  let r := if recentRation = 0 then Default2QRecentRatio else recentRation
  let g := if ghostEntries = 0 then Default2QGhostEntries else ghostEntries
  New2QParams size r g

/-- `twoQueueCache.ensureSpace`: a no-op while `recent.Len() +
frequent.Len() < size`; otherwise evicts the oldest entry of `recent` when
`recentLen > 0 && (recentLen > recentSize || (recentLen == recentSize &&
!recentEvict))`, and the oldest entry of `frequent` otherwise.  No evicted
key is recorded anywhere. -/
def TwoQueueCache.ensureSpace (t : TwoQueueCache) (recentEvict : Bool) :
    Option String × TwoQueueCache :=
  let recentLen := t.recent.Len
  let freqLen := t.frequent.Len
  if recentLen + freqLen < t.size then (none, t)
  else if recentLen > 0 ∧ (recentLen > t.recentSize ∨
      (recentLen = t.recentSize ∧ recentEvict = false)) then
    let r := t.recent.RemoveOldest
    (r.2, { t with recent := r.1 })
  else
    let f := t.frequent.RemoveOldest
    (f.2, { t with frequent := f.1 })

/-- `twoQueueCache.Get`: a `frequent` hit returns at once (after the
internal move-to-front).  On a miss the source peeks `recent`; both the
`value` and `ok` results of that `if` initializer are fresh variables, and
since `lru.Peek` always reports `ok = false`, the promotion branch is
dead, so the function returns the outer named results — the nil value and
the not-found error of the `frequent` lookup. -/
def TwoQueueCache.Get (t : TwoQueueCache) (key : GoVal) :
    GoVal × Option String × TwoQueueCache :=
  let g := t.frequent.Get key
  let value := g.1
  let err := g.2.1
  let t := { t with frequent := g.2.2 }
  if err = none then (value, err, t)
  else
    let p := t.recent.Peek key
    if p.2 then
      let t := { t with recent := (t.recent.Remove key).1 }
      let f := t.frequent.Put key p.1
      (value, f.2, { t with frequent := f.1 })
    else (value, err, t)

/-- `twoQueueCache.Add`: refresh a `frequent` hit in place; promote a
`recent` hit to `frequent`; on a ghost hit make space and promote directly
to `frequent`; otherwise make space and insert into `recent`. -/
def TwoQueueCache.Add (t : TwoQueueCache) (key value : GoVal) :
    Option String × TwoQueueCache :=
  if t.frequent.Contains key then
    let f := t.frequent.Put key value
    (f.2, { t with frequent := f.1 })
  else if t.recent.Contains key then
    let t := { t with recent := (t.recent.Remove key).1 }
    let f := t.frequent.Put key value
    (f.2, { t with frequent := f.1 })
  else if t.recentEvict.Contains key then
    match t.ensureSpace true with
    | (some e, t) => (some e, t)
    | (none, t) =>
      let t := { t with recentEvict := (t.recentEvict.Remove key).1 }
      let f := t.frequent.Put key value
      (f.2, { t with frequent := f.1 })
  else
    match t.ensureSpace false with
    | (some e, t) => (some e, t)
    | (none, t) =>
      let r := t.recent.Put key value
      (r.2, { t with recent := r.1 })

/-- `twoQueueCache.Len`: visible size, ghost entries excluded. -/
def TwoQueueCache.Len (t : TwoQueueCache) : Int :=
  t.recent.Len + t.frequent.Len

/-- `twoQueueCache.Keys`: frequent keys first, then recent keys. -/
def TwoQueueCache.Keys (t : TwoQueueCache) : List GoVal :=
  t.frequent.Keys ++ t.recent.Keys

/-- `twoQueueCache.Remove`: tries `frequent`, `recent`, `recentEvict` in
order; since `lru.Remove` always returns `false`, all three removals
run. -/
def TwoQueueCache.Remove (t : TwoQueueCache) (key : GoVal) : TwoQueueCache :=
  let f := t.frequent.Remove key
  let t := { t with frequent := f.1 }
  if f.2 then t else
  let r := t.recent.Remove key
  let t := { t with recent := r.1 }
  if r.2 then t else
  let e := t.recentEvict.Remove key
  { t with recentEvict := e.1 }

/-- `twoQueueCache.Purge`: clears all three stores. -/
def TwoQueueCache.Purge (t : TwoQueueCache) : TwoQueueCache :=
  { t with recent := t.recent.Purge, frequent := t.frequent.Purge,
           recentEvict := t.recentEvict.Purge }

/-- `twoQueueCache.Contains`: checks `frequent` then `recent` only. -/
def TwoQueueCache.Contains (t : TwoQueueCache) (key : GoVal) : Bool :=
  t.frequent.Contains key || t.recent.Contains key

/-- `twoQueueCache.Peek`: reads `frequent` then `recent`, no mutation
(recall that `lru.Peek` always reports `ok = false`, so this always falls
through to the `recent` peek on a `frequent` entry as well). -/
def TwoQueueCache.Peek (t : TwoQueueCache) (key : GoVal) : GoVal × Bool :=
  let f := t.frequent.Peek key
  if f.2 then f else t.recent.Peek key

/-! Helper lemmas about the key-indexed list operations. -/

theorem hasKey_iff (xs : List (GoVal × GoVal)) (k : GoVal) :
    hasKey xs k = true ↔ ∃ p ∈ xs, p.1 = k := by
  simp [hasKey]

theorem hasKey_cons (p : GoVal × GoVal) (ps : List (GoVal × GoVal)) (k : GoVal) :
    hasKey (p :: ps) k = (decide (p.1 = k) || hasKey ps k) := by
  simp [hasKey]

theorem hasKey_iff_mem_keysOf (xs : List (GoVal × GoVal)) (k : GoVal) :
    hasKey xs k = true ↔ k ∈ keysOf xs := by
  rw [hasKey_iff]
  simp [keysOf]

theorem eraseKey_length_le (xs : List (GoVal × GoVal)) (k : GoVal) :
    (eraseKey xs k).length ≤ xs.length := by
  induction xs with
  | nil => simp [eraseKey]
  | cons p ps ih =>
    by_cases h : p.1 = k
    · simp [eraseKey, h]
    · simp only [eraseKey, if_neg h, List.length_cons]
      omega

theorem eraseKey_length_of_hasKey (xs : List (GoVal × GoVal)) (k : GoVal)
    (h : hasKey xs k = true) : (eraseKey xs k).length + 1 = xs.length := by
  induction xs with
  | nil => simp [hasKey] at h
  | cons p ps ih =>
    by_cases hp : p.1 = k
    · simp [eraseKey, hp]
    · have h' : hasKey ps k = true := by
        rw [hasKey_cons] at h
        simpa [hp] using h
      simp [eraseKey, hp, ih h']

theorem eraseKey_of_not_hasKey (xs : List (GoVal × GoVal)) (k : GoVal)
    (h : hasKey xs k = false) : eraseKey xs k = xs := by
  induction xs with
  | nil => rfl
  | cons p ps ih =>
    rw [hasKey_cons] at h
    have hp : ¬(p.1 = k) := by
      intro hc
      simp [hc] at h
    have h' : hasKey ps k = false := by
      simpa [hp] using h
    simp [eraseKey, hp, ih h']

theorem hasKey_eraseKey_imp (xs : List (GoVal × GoVal)) (k j : GoVal)
    (h : hasKey (eraseKey xs k) j = true) : hasKey xs j = true := by
  induction xs with
  | nil => simpa [eraseKey] using h
  | cons p ps ih =>
    by_cases hp : p.1 = k
    · rw [eraseKey, if_pos hp] at h
      rw [hasKey_cons, h, Bool.or_true]
    · rw [eraseKey, if_neg hp] at h
      rw [hasKey_cons] at h ⊢
      rw [Bool.or_eq_true] at h
      rcases h with h1 | h1
      · rw [h1, Bool.true_or]
      · rw [ih h1, Bool.or_true]

theorem hasKey_eraseKey_of_ne (xs : List (GoVal × GoVal)) (k j : GoVal)
    (hne : j ≠ k) : hasKey (eraseKey xs k) j = hasKey xs j := by
  induction xs with
  | nil => rfl
  | cons p ps ih =>
    by_cases hp : p.1 = k
    · rw [eraseKey, if_pos hp, hasKey_cons]
      have : decide (p.1 = j) = false := by
        simp [hp]
        intro hc
        exact absurd hc.symm hne
      rw [this, Bool.false_or]
    · rw [eraseKey, if_neg hp, hasKey_cons, hasKey_cons, ih]

theorem not_hasKey_eraseKey_self (xs : List (GoVal × GoVal)) (k : GoVal)
    (hnd : (keysOf xs).Nodup) : hasKey (eraseKey xs k) k = false := by
  induction xs with
  | nil => rfl
  | cons p ps ih =>
    rw [keysOf, List.map_cons, List.nodup_cons] at hnd
    by_cases hp : p.1 = k
    · rw [eraseKey, if_pos hp]
      rw [Bool.eq_false_iff]
      intro hc
      exact hnd.1 (hp ▸ (hasKey_iff_mem_keysOf ps k).mp hc)
    · rw [eraseKey, if_neg hp, hasKey_cons, ih hnd.2]
      simp [hp]

theorem nodup_eraseKey (xs : List (GoVal × GoVal)) (k : GoVal)
    (hnd : (keysOf xs).Nodup) : (keysOf (eraseKey xs k)).Nodup := by
  induction xs with
  | nil => simpa [eraseKey] using hnd
  | cons p ps ih =>
    rw [keysOf, List.map_cons, List.nodup_cons] at hnd
    by_cases hp : p.1 = k
    · rw [eraseKey, if_pos hp]
      exact hnd.2
    · rw [eraseKey, if_neg hp, keysOf, List.map_cons, List.nodup_cons]
      refine ⟨fun hc => hnd.1 ?_, ih hnd.2⟩
      have := (hasKey_iff_mem_keysOf (eraseKey ps k) p.1).mpr hc
      exact (hasKey_iff_mem_keysOf ps p.1).mp (hasKey_eraseKey_imp ps k p.1 this)

theorem hasKey_dropLast_imp (xs : List (GoVal × GoVal)) (j : GoVal)
    (h : hasKey xs.dropLast j = true) : hasKey xs j = true := by
  rw [hasKey_iff] at h ⊢
  obtain ⟨p, hp, hpj⟩ := h
  exact ⟨p, (List.dropLast_sublist xs).mem hp, hpj⟩

theorem nodup_dropLast (xs : List (GoVal × GoVal))
    (hnd : (keysOf xs).Nodup) : (keysOf xs.dropLast).Nodup := by
  exact hnd.sublist ((List.dropLast_sublist xs).map Prod.fst)

theorem find?_eq_none_iff (xs : List (GoVal × GoVal)) (k : GoVal) :
    (xs.find? fun p => decide (p.1 = k)) = none ↔ hasKey xs k = false := by
  simp [List.find?_eq_none, hasKey]

theorem find?_some_key (xs : List (GoVal × GoVal)) (k : GoVal) (p : GoVal × GoVal)
    (h : (xs.find? fun q => decide (q.1 = k)) = some p) :
    p.1 = k ∧ p ∈ xs ∧ hasKey xs k = true := by
  have h1 := List.find?_some h
  have h2 := List.mem_of_find?_eq_some h
  refine ⟨of_decide_eq_true h1, h2, ?_⟩
  exact (hasKey_iff xs k).mpr ⟨p, h2, of_decide_eq_true h1⟩

theorem Lru.put_of_mem (l : Lru) (k v : GoVal) (h : hasKey l.items k = true) :
    l.Put k v = ({ l with items := (k, v) :: eraseKey l.items k }, none) := by
  simp [Lru.Put, h]

theorem Lru.put_of_fresh (l : Lru) (k v : GoVal) (h : hasKey l.items k = false)
    (hlt : (l.items.length : Int) < l.capacity) :
    l.Put k v = ({ l with items := (k, v) :: l.items }, none) := by
  have hnge : ¬((l.items.length : Int) ≥ l.capacity) := not_le.mpr hlt
  simp [Lru.Put, h, hnge]

/-! The sequential state machine generated by the public 2Q operations, and
the invariant maintained from construction through every operation. -/

/-- One public mutating call on the 2Q cache (`Contains`, `Peek`, `Len` and
`Keys` read the state through the non-mutating `lru` accessors only, so
they do not change it and are omitted). -/
inductive Op where
  | add : GoVal → GoVal → Op
  | get : GoVal → Op
  | remove : GoVal → Op
  | purge : Op
  deriving DecidableEq, Repr

/-- The state reached after one public call. -/
def applyOp (t : TwoQueueCache) : Op → TwoQueueCache
  | .add k v => (t.Add k v).2
  | .get k => (t.Get k).2.2
  | .remove k => t.Remove k
  | .purge => t.Purge

/-- The state reached after a sequence of public calls. -/
def run (t : TwoQueueCache) (ops : List Op) : TwoQueueCache :=
  ops.foldl applyOp t

/-- The internal invariant of the 2Q cache: the configuration fields are
well formed and fixed, the ghost store is empty, each store's keys are
duplicate-free, `recent` and `frequent` are key-disjoint, and the visible
size is within budget. -/
structure CacheInv (t : TwoQueueCache) : Prop where
  size_pos : 0 < t.size
  recentSize_le : t.recentSize ≤ t.size
  recent_cap : t.recent.capacity = t.size
  freq_cap : t.frequent.capacity = t.size
  ghost_items : t.recentEvict.items = []
  recent_nodup : (keysOf t.recent.items).Nodup
  freq_nodup : (keysOf t.frequent.items).Nodup
  disj : ∀ k, ¬(hasKey t.recent.items k = true ∧ hasKey t.frequent.items k = true)
  total_le : (t.recent.items.length : Int) + (t.frequent.items.length : Int) ≤ t.size

theorem inv_get (t : TwoQueueCache) (k : GoVal) (h : CacheInv t) : CacheInv (t.Get k).2.2 := by
  obtain ⟨hpos, hrs, hrc, hfc, hg, hrn, hfn, hd, hlen⟩ := h
  cases hfind : t.frequent.items.find? (fun p => decide (p.1 = k)) with
  | none =>
    have heq : (t.Get k).2.2 = t := by
      simp [TwoQueueCache.Get, Lru.Get, hfind, Lru.Peek]
    rw [heq]
    exact ⟨hpos, hrs, hrc, hfc, hg, hrn, hfn, hd, hlen⟩
  | some p =>
    obtain ⟨hpk, hpmem, hhk⟩ := find?_some_key _ _ _ hfind
    have heq : (t.Get k).2.2 =
        { t with frequent := { t.frequent with items := p :: eraseKey t.frequent.items k } } := by
      simp [TwoQueueCache.Get, Lru.Get, hfind]
    rw [heq]
    have hlen' := eraseKey_length_of_hasKey t.frequent.items k hhk
    refine ⟨hpos, hrs, hrc, hfc, hg, hrn, ?_, ?_, ?_⟩
    · rw [keysOf, List.map_cons, List.nodup_cons]
      refine ⟨fun hc => ?_, nodup_eraseKey _ _ hfn⟩
      have := (hasKey_iff_mem_keysOf _ _).mpr (hpk ▸ hc)
      rw [not_hasKey_eraseKey_self _ _ hfn] at this
      exact Bool.false_ne_true this
    · intro j hj
      rcases hj with ⟨h1, h2⟩
      rw [hasKey_cons, Bool.or_eq_true] at h2
      rcases h2 with h2 | h2
      · have hjk : j = k := hpk ▸ (of_decide_eq_true h2).symm
        exact hd k ⟨hjk ▸ h1, hhk⟩
      · exact hd j ⟨h1, hasKey_eraseKey_imp _ _ _ h2⟩
    · simp only [List.length_cons]
      omega

theorem inv_remove (t : TwoQueueCache) (k : GoVal) (h : CacheInv t) : CacheInv (t.Remove k) := by
  obtain ⟨hpos, hrs, hrc, hfc, hg, hrn, hfn, hd, hlen⟩ := h
  have heq : t.Remove k =
      { t with frequent := { t.frequent with items := eraseKey t.frequent.items k },
               recent := { t.recent with items := eraseKey t.recent.items k },
               recentEvict := { t.recentEvict with items := eraseKey t.recentEvict.items k } } := by
    simp [TwoQueueCache.Remove, Lru.Remove]
  rw [heq]
  have hr := eraseKey_length_le t.recent.items k
  have hf := eraseKey_length_le t.frequent.items k
  refine ⟨hpos, hrs, hrc, hfc, ?_, nodup_eraseKey _ _ hrn, nodup_eraseKey _ _ hfn, ?_, ?_⟩
  · rw [hg]
    rfl
  · intro j hj
    exact hd j ⟨hasKey_eraseKey_imp _ _ _ hj.1, hasKey_eraseKey_imp _ _ _ hj.2⟩
  · dsimp only
    omega

theorem inv_purge (t : TwoQueueCache) (h : CacheInv t) : CacheInv t.Purge := by
  obtain ⟨hpos, hrs, hrc, hfc, hg, hrn, hfn, hd, hlen⟩ := h
  refine ⟨hpos, hrs, hrc, hfc, rfl, ?_, ?_, ?_, ?_⟩
  · simp [TwoQueueCache.Purge, Lru.Purge, keysOf]
  · simp [TwoQueueCache.Purge, Lru.Purge, keysOf]
  · intro j hj
    have : hasKey ([] : List (GoVal × GoVal)) j = true := hj.1
    simp [hasKey] at this
  · simp [TwoQueueCache.Purge, Lru.Purge]
    omega

theorem ensureSpace_of_lt (t : TwoQueueCache) (b : Bool)
    (h : t.recent.Len + t.frequent.Len < t.size) : t.ensureSpace b = (none, t) := by
  simp [TwoQueueCache.ensureSpace, h]

theorem ensureSpace_of_recent (t : TwoQueueCache) (b : Bool)
    (h1 : ¬(t.recent.Len + t.frequent.Len < t.size))
    (h2 : t.recent.Len > 0 ∧ (t.recent.Len > t.recentSize ∨
      (t.recent.Len = t.recentSize ∧ b = false))) :
    t.ensureSpace b =
      (none, { t with recent := { t.recent with items := t.recent.items.dropLast } }) := by
  simp [TwoQueueCache.ensureSpace, h1, h2, Lru.RemoveOldest]

theorem ensureSpace_of_freq (t : TwoQueueCache) (b : Bool)
    (h1 : ¬(t.recent.Len + t.frequent.Len < t.size))
    (h2 : ¬(t.recent.Len > 0 ∧ (t.recent.Len > t.recentSize ∨
      (t.recent.Len = t.recentSize ∧ b = false)))) :
    t.ensureSpace b =
      (none, { t with frequent := { t.frequent with items := t.frequent.items.dropLast } }) := by
  simp only [TwoQueueCache.ensureSpace, Lru.RemoveOldest]
  rw [if_neg h1, if_neg h2]

theorem inv_add (t : TwoQueueCache) (k v : GoVal) (h : CacheInv t) : CacheInv (t.Add k v).2 := by
  obtain ⟨hpos, hrs, hrc, hfc, hg, hrn, hfn, hd, hlen⟩ := h
  by_cases hf : hasKey t.frequent.items k = true
  · -- the key is already in frequent: update in place
    have heq : (t.Add k v).2 =
        { t with frequent :=
            { t.frequent with items := (k, v) :: eraseKey t.frequent.items k } } := by
      simp [TwoQueueCache.Add, Lru.Contains, hf, Lru.put_of_mem _ _ v hf]
    rw [heq]
    have hlen' := eraseKey_length_of_hasKey t.frequent.items k hf
    refine ⟨hpos, hrs, hrc, hfc, hg, hrn, ?_, ?_, ?_⟩
    · rw [keysOf, List.map_cons, List.nodup_cons]
      refine ⟨fun hc => ?_, nodup_eraseKey _ _ hfn⟩
      have := (hasKey_iff_mem_keysOf _ _).mpr hc
      rw [not_hasKey_eraseKey_self _ _ hfn] at this
      exact Bool.false_ne_true this
    · intro j hj
      rcases hj with ⟨h1, h2⟩
      rw [hasKey_cons, Bool.or_eq_true] at h2
      rcases h2 with h2 | h2
      · have hjk : k = j := of_decide_eq_true h2
        exact hd k ⟨hjk ▸ h1, hf⟩
      · exact hd j ⟨h1, hasKey_eraseKey_imp _ _ _ h2⟩
    · simp only [List.length_cons]
      omega
  · by_cases hr : hasKey t.recent.items k = true
    · -- the key is in recent: promote it to frequent
      have hr1 := eraseKey_length_of_hasKey t.recent.items k hr
      have hflt : ((t.frequent.items.length : Int)) < t.frequent.capacity := by
        rw [hfc]
        omega
      have heq : (t.Add k v).2 =
          { t with recent := { t.recent with items := eraseKey t.recent.items k },
                   frequent := { t.frequent with items := (k, v) :: t.frequent.items } } := by
        simp [TwoQueueCache.Add, Lru.Contains, hf, hr, Lru.Remove,
          Lru.put_of_fresh _ _ v (Bool.eq_false_iff.mpr hf) hflt]
      rw [heq]
      refine ⟨hpos, hrs, hrc, hfc, hg, nodup_eraseKey _ _ hrn, ?_, ?_, ?_⟩
      · rw [keysOf, List.map_cons, List.nodup_cons]
        exact ⟨fun hc => hf ((hasKey_iff_mem_keysOf _ _).mpr hc), hfn⟩
      · intro j hj
        rcases hj with ⟨h1, h2⟩
        rw [hasKey_cons, Bool.or_eq_true] at h2
        rcases h2 with h2 | h2
        · have hjk : k = j := of_decide_eq_true h2
          rw [← hjk, not_hasKey_eraseKey_self _ _ hrn] at h1
          exact Bool.false_ne_true h1
        · exact hd j ⟨hasKey_eraseKey_imp _ _ _ h1, h2⟩
      · simp only [List.length_cons]
        omega
    · -- the key is neither in frequent nor in recent; the ghost store is
      -- empty, so only the new-key path remains
      have hge : hasKey t.recentEvict.items k = false := by
        rw [hg]
        rfl
      by_cases hsp : t.recent.Len + t.frequent.Len < t.size
      · -- still under budget: plain insert into recent
        have hrlt : ((t.recent.items.length : Int)) < t.recent.capacity := by
          rw [hrc]
          simp only [Lru.Len] at hsp
          omega
        have heq : (t.Add k v).2 =
            { t with recent := { t.recent with items := (k, v) :: t.recent.items } } := by
          simp [TwoQueueCache.Add, Lru.Contains, hf, hr, hge, ensureSpace_of_lt t false hsp,
            Lru.put_of_fresh _ _ v (Bool.eq_false_iff.mpr hr) hrlt]
        rw [heq]
        simp only [Lru.Len] at hsp
        refine ⟨hpos, hrs, hrc, hfc, hg, ?_, hfn, ?_, ?_⟩
        · rw [keysOf, List.map_cons, List.nodup_cons]
          exact ⟨fun hc => hr ((hasKey_iff_mem_keysOf _ _).mpr hc), hrn⟩
        · intro j hj
          rcases hj with ⟨h1, h2⟩
          rw [hasKey_cons, Bool.or_eq_true] at h1
          rcases h1 with h1 | h1
          · have hjk : k = j := of_decide_eq_true h1
            exact hf (hjk ▸ h2)
          · exact hd j ⟨h1, h2⟩
        · simp only [List.length_cons]
          omega
      · by_cases hcond : t.recent.Len > 0 ∧ (t.recent.Len > t.recentSize ∨
            (t.recent.Len = t.recentSize ∧ (false : Bool) = false))
        · -- at budget: evict the oldest recent entry, then insert
          have hrpos : 1 ≤ t.recent.items.length := by
            have := hcond.1
            simp only [Lru.Len] at this
            omega
          have hkdl : hasKey t.recent.items.dropLast k = false := by
            rw [Bool.eq_false_iff]
            intro hc
            exact hr (hasKey_dropLast_imp _ _ hc)
          have hrlt : ((t.recent.items.dropLast.length : Int)) < t.recent.capacity := by
            rw [hrc, List.length_dropLast]
            simp only [Lru.Len] at hsp
            omega
          have hput : Lru.Put { capacity := t.recent.capacity, items := t.recent.items.dropLast } k v
              = ({ capacity := t.recent.capacity,
                   items := (k, v) :: t.recent.items.dropLast }, none) :=
            Lru.put_of_fresh _ _ _ hkdl hrlt
          have heq : (t.Add k v).2 =
              { t with recent :=
                  { t.recent with items := (k, v) :: t.recent.items.dropLast } } := by
            simp [TwoQueueCache.Add, Lru.Contains, hf, hr, hge,
              ensureSpace_of_recent t false hsp hcond, hput]
          rw [heq]
          simp only [Lru.Len] at hsp
          refine ⟨hpos, hrs, hrc, hfc, hg, ?_, hfn, ?_, ?_⟩
          · rw [keysOf, List.map_cons, List.nodup_cons]
            refine ⟨fun hc => ?_, nodup_dropLast _ hrn⟩
            have hc' : hasKey t.recent.items.dropLast k = true :=
              (hasKey_iff_mem_keysOf _ _).mpr (by simpa [keysOf] using hc)
            rw [hkdl] at hc'
            exact Bool.false_ne_true hc'
          · intro j hj
            rcases hj with ⟨h1, h2⟩
            rw [hasKey_cons, Bool.or_eq_true] at h1
            rcases h1 with h1 | h1
            · have hjk : k = j := of_decide_eq_true h1
              exact hf (hjk ▸ h2)
            · exact hd j ⟨hasKey_dropLast_imp _ _ h1, h2⟩
          · simp only [List.length_cons, List.length_dropLast]
            omega
        · -- at budget: evict the oldest frequent entry, then insert
          have hfpos : 1 ≤ t.frequent.items.length := by
            have hcond' : ¬(0 < (t.recent.items.length : Int) ∧
                (t.recentSize < (t.recent.items.length : Int) ∨
                  (t.recent.items.length : Int) = t.recentSize)) := by
              intro hc
              exact hcond ⟨hc.1, hc.2.imp id fun hx => ⟨hx, rfl⟩⟩
            simp only [Lru.Len] at hsp
            omega
          have hrlt : ((t.recent.items.length : Int)) < t.recent.capacity := by
            rw [hrc]
            simp only [Lru.Len] at hsp
            omega
          have hput : Lru.Put t.recent k v
              = ({ t.recent with items := (k, v) :: t.recent.items }, none) :=
            Lru.put_of_fresh _ _ _ (Bool.eq_false_iff.mpr hr) hrlt
          have heq : (t.Add k v).2 =
              { t with frequent := { t.frequent with items := t.frequent.items.dropLast },
                       recent := { t.recent with items := (k, v) :: t.recent.items } } := by
            simp [TwoQueueCache.Add, Lru.Contains, hf, hr, hge,
              ensureSpace_of_freq t false hsp hcond, hput]
          rw [heq]
          simp only [Lru.Len] at hsp
          refine ⟨hpos, hrs, hrc, hfc, hg, ?_, nodup_dropLast _ hfn, ?_, ?_⟩
          · rw [keysOf, List.map_cons, List.nodup_cons]
            exact ⟨fun hc => hr ((hasKey_iff_mem_keysOf _ _).mpr hc), hrn⟩
          · intro j hj
            rcases hj with ⟨h1, h2⟩
            rw [hasKey_cons, Bool.or_eq_true] at h1
            rcases h1 with h1 | h1
            · have hjk : k = j := of_decide_eq_true h1
              exact hf (hjk ▸ hasKey_dropLast_imp _ _ h2)
            · exact hd j ⟨h1, hasKey_dropLast_imp _ _ h2⟩
          · simp only [List.length_cons, List.length_dropLast]
            omega

theorem inv_applyOp (t : TwoQueueCache) (op : Op) (h : CacheInv t) :
    CacheInv (applyOp t op) := by
  cases op with
  | add k v => exact inv_add t k v h
  | get k => exact inv_get t k h
  | remove k => exact inv_remove t k h
  | purge => exact inv_purge t h

theorem inv_run (t : TwoQueueCache) (ops : List Op) (h : CacheInv t) :
    CacheInv (run t ops) := by
  induction ops generalizing t with
  | nil => exact h
  | cons op ops ih => exact ih _ (inv_applyOp t op h)

theorem rat_floor_mul_le (s : Int) (r : ℚ) (hs : 0 < s) (hr1 : r ≤ 1) :
    ((s : ℚ) * r).floor ≤ s := by
  have hcast : ((s : ℚ) * r).floor = ⌊(s : ℚ) * r⌋ := rfl
  have h1 : (s : ℚ) * r ≤ (s : ℚ) := by
    have hs0 : (0 : ℚ) ≤ (s : ℚ) := by exact_mod_cast hs.le
    exact mul_le_of_le_one_right hs0 hr1
  calc ((s : ℚ) * r).floor = ⌊(s : ℚ) * r⌋ := hcast
    _ ≤ ⌊(s : ℚ)⌋ := Int.floor_le_floor h1
    _ = s := Int.floor_intCast s

/-- Inversion of a successful construction: the exact initial state, and
the facts the guards establish. -/
theorem new2QParams_ok (size : Int) (r g : ℚ) (t : TwoQueueCache)
    (h : New2QParams size r g = .ok t) :
    t = { size := size, recentSize := ((size : ℚ) * r).floor,
          recent := { capacity := size, items := [] },
          frequent := { capacity := size, items := [] },
          recentEvict := { capacity := ((size : ℚ) * g).floor, items := [] } }
      ∧ 0 < size ∧ 0 ≤ r ∧ r ≤ 1 ∧ 0 ≤ g ∧ g ≤ 1 ∧ 0 < ((size : ℚ) * g).floor := by
  unfold New2QParams at h
  split_ifs at h with h1 h2 h3
  by_cases hev : ((size : ℚ) * g).floor ≤ 0
  · exfalso
    simp [NewLRU, h1, hev] at h
  · simp only [NewLRU, if_neg h1, if_neg hev] at h
    push_neg at h1 h2 h3
    injection h with h
    exact ⟨h.symm, h1, h2.1, h2.2, h3.1, h3.2, not_le.mp hev⟩

theorem inv_new (size : Int) (r g : ℚ) (t : TwoQueueCache)
    (h : New2QParams size r g = .ok t) : CacheInv t := by
  obtain ⟨ht, h1, _, h2, _, _, _⟩ := new2QParams_ok size r g t h
  subst ht
  refine ⟨h1, ?_, rfl, rfl, rfl, ?_, ?_, ?_, ?_⟩
  · exact rat_floor_mul_le size r h1 h2
  · simp [keysOf]
  · simp [keysOf]
  · intro j hj
    have : hasKey ([] : List (GoVal × GoVal)) j = true := hj.1
    simp [hasKey] at this
  · simp
    omega

theorem ensureSpace_size (t : TwoQueueCache) (b : Bool) :
    ((t.ensureSpace b).2).size = t.size := by
  simp only [TwoQueueCache.ensureSpace]
  split
  · rfl
  · split <;> rfl

theorem add_size (t : TwoQueueCache) (k v : GoVal) : ((t.Add k v).2).size = t.size := by
  have hes1 := ensureSpace_size t true
  have hes0 := ensureSpace_size t false
  simp only [TwoQueueCache.Add]
  split
  · rfl
  · split
    · rfl
    · split
      · split
        next e t' heq => rw [heq] at hes1; exact hes1
        next t' heq => rw [heq] at hes1; exact hes1
      · split
        next e t' heq => rw [heq] at hes0; exact hes0
        next t' heq => rw [heq] at hes0; exact hes0

theorem get_size (t : TwoQueueCache) (k : GoVal) : ((t.Get k).2.2).size = t.size := by
  simp only [TwoQueueCache.Get]
  split
  · rfl
  · split <;> rfl

theorem applyOp_size (t : TwoQueueCache) (op : Op) : (applyOp t op).size = t.size := by
  cases op with
  | add k v => exact add_size t k v
  | get k => exact get_size t k
  | remove k =>
    unfold applyOp TwoQueueCache.Remove
    rfl
  | purge => rfl

theorem run_size (t : TwoQueueCache) (ops : List Op) : (run t ops).size = t.size := by
  induction ops generalizing t with
  | nil => rfl
  | cons op ops ih => rw [run, List.foldl_cons, ← run, ih, applyOp_size]

/-! Filling a bounded LRU store key by key (for the eviction-order
property of `lru.Put`). -/

/-- Folding `lru.Put` over a list of key/value pairs, first pair first (so
the first pair ends up oldest). -/
def putAll (l : Lru) (ks : List (GoVal × GoVal)) : Lru :=
  ks.foldl (fun acc p => (acc.Put p.1 p.2).1) l

theorem Lru.put_of_fresh_full (l : Lru) (k v : GoVal)
    (h : hasKey l.items k = false) (hge : (l.items.length : Int) ≥ l.capacity) :
    l.Put k v = ({ l with items := (k, v) :: l.items.dropLast }, none) := by
  simp [Lru.Put, h, hge]

theorem hasKey_reverse (xs : List (GoVal × GoVal)) (k : GoVal) :
    hasKey xs.reverse k = hasKey xs k := by
  cases hx : hasKey xs k with
  | false =>
    rw [Bool.eq_false_iff]
    intro hc
    obtain ⟨p, hp, hpk⟩ := (hasKey_iff _ _).mp hc
    have := (hasKey_iff xs k).mpr ⟨p, List.mem_reverse.mp hp, hpk⟩
    rw [hx] at this
    exact Bool.false_ne_true this
  | true =>
    obtain ⟨p, hp, hpk⟩ := (hasKey_iff _ _).mp hx
    exact (hasKey_iff _ _).mpr ⟨p, List.mem_reverse.mpr hp, hpk⟩

theorem putAll_fill (ks : List (GoVal × GoVal)) (l : Lru)
    (hnd : (keysOf ks).Nodup)
    (hfresh : ∀ p ∈ ks, hasKey l.items p.1 = false)
    (hlen : (l.items.length : Int) + ks.length ≤ l.capacity) :
    putAll l ks = { l with items := ks.reverse ++ l.items } := by
  induction ks generalizing l with
  | nil => simp [putAll]
  | cons p ps ih =>
    have hp : hasKey l.items p.1 = false := hfresh p (List.mem_cons_self p ps)
    have hlt : (l.items.length : Int) < l.capacity := by
      simp only [List.length_cons] at hlen
      push_cast at hlen
      omega
    have hput := Lru.put_of_fresh l p.1 p.2 hp hlt
    have hstep : putAll l (p :: ps) = putAll ((l.Put p.1 p.2).1) ps := rfl
    rw [hstep, hput]
    rw [keysOf, List.map_cons, List.nodup_cons] at hnd
    have hih := ih { l with items := (p.1, p.2) :: l.items } hnd.2 ?_ ?_
    · rw [hih]
      simp [List.append_assoc]
    · intro q hq
      rw [hasKey_cons, Bool.or_eq_false_iff]
      refine ⟨?_, hfresh q (List.mem_cons_of_mem p hq)⟩
      rw [decide_eq_false_iff_not]
      intro hc
      have hmem : q.1 ∈ List.map Prod.fst ps := List.mem_map_of_mem Prod.fst hq
      rw [← hc] at hmem
      exact hnd.1 hmem
    · simp only [List.length_cons] at hlen ⊢
      push_cast at hlen ⊢
      omega

/-! The locking discipline of the public `twoQueueCache` methods, read off
from the source. -/

/-- How a method of `twoQueueCache` uses the struct's `sync.RWMutex`. -/
inductive LockMode where
  | free : LockMode
  | shared : LockMode
  | exclusive : LockMode
  deriving DecidableEq, Repr

/-- The public methods of `twoQueueCache`. -/
inductive TQMethod where
  | add : TQMethod
  | get : TQMethod
  | remove : TQMethod
  | purge : TQMethod
  | len : TQMethod
  | keys : TQMethod
  | contains : TQMethod
  | peek : TQMethod
  deriving DecidableEq, Repr

/-- The lock acquisition each method performs on `t.lock` for its whole
body, read off from `cache.go`: `Add`, `Remove` and `Purge` call
`t.lock.Lock()` with a deferred `Unlock`; `Len`, `Keys`, `Contains` and
`Peek` call `t.lock.RLock()` with a deferred `RUnlock`; `Get` contains no
acquisition of `t.lock` at all. -/
def lockAcquisition : TQMethod → LockMode
  | .add => .exclusive
  | .get => .free
  | .remove => .exclusive
  | .purge => .exclusive
  | .len => .shared
  | .keys => .shared
  | .contains => .shared
  | .peek => .shared

/-! Concrete constructions used by the claim theorems. -/

theorem rat_floor_eq_int_floor (q : ℚ) : q.floor = ⌊q⌋ := rfl

/-- The cache `New2QParams 2 (1/2) (1/2)` constructs. -/
def cacheTwo : TwoQueueCache :=
  { size := 2, recentSize := 1,
    recent := { capacity := 2, items := [] },
    frequent := { capacity := 2, items := [] },
    recentEvict := { capacity := 1, items := [] } }

theorem construct_cacheTwo : New2QParams 2 (1/2) (1/2) = Except.ok cacheTwo := by
  simp only [New2QParams, NewLRU, rat_floor_eq_int_floor]
  norm_num [cacheTwo]

/-- The cache `New2Q 2 0.0 0.0` constructs (both ratios defaulted). -/
def cacheTwoDefaults : TwoQueueCache :=
  { size := 2, recentSize := 0,
    recent := { capacity := 2, items := [] },
    frequent := { capacity := 2, items := [] },
    recentEvict := { capacity := 1, items := [] } }

theorem construct_cacheTwoDefaults : New2Q 2 0 0 = Except.ok cacheTwoDefaults := by
  simp only [New2Q, Default2QRecentRatio, Default2QGhostEntries, New2QParams, NewLRU,
    rat_floor_eq_int_floor]
  norm_num [cacheTwoDefaults]

/-- The cache `New2QParams 4 (1/4) (1/2)` constructs. -/
def cacheFour : TwoQueueCache :=
  { size := 4, recentSize := 1,
    recent := { capacity := 4, items := [] },
    frequent := { capacity := 4, items := [] },
    recentEvict := { capacity := 2, items := [] } }

theorem construct_cacheFour : New2QParams 4 (1/4) (1/2) = Except.ok cacheFour := by
  simp only [New2QParams, NewLRU, rat_floor_eq_int_floor]
  norm_num [cacheFour]

theorem construct_sizeOne_err :
    New2QParams 1 (1/2) (1/2) = Except.error "must provide a positive size" := by
  simp only [New2QParams, NewLRU, rat_floor_eq_int_floor]
  norm_num

/-- The state of `cacheTwo` after `Add 1 1; Add 2 2; Add 3 3` (the third
add evicts key 1 from `recent`). -/
def c1Mid : TwoQueueCache :=
  (((cacheTwo.Add (GoVal.int 1) (GoVal.int 1)).2.Add (GoVal.int 2) (GoVal.int 2)).2.Add
    (GoVal.int 3) (GoVal.int 3)).2

/-- A sample operation sequence exercising every kind of public call. -/
def sampleOps : List Op :=
  [Op.add (GoVal.int 1) (GoVal.int 1), Op.add (GoVal.int 2) (GoVal.int 2),
   Op.add (GoVal.int 3) (GoVal.int 3), Op.get (GoVal.int 3),
   Op.add (GoVal.int 2) (GoVal.int 5), Op.remove (GoVal.int 3),
   Op.add (GoVal.str "x") (GoVal.int 7), Op.purge,
   Op.add (GoVal.int 9) (GoVal.int 9), Op.get (GoVal.int 9)]

/-- A cache state whose `frequent` store holds keys 1 (front) and 2
(back), as reached by promotions; used to show `Get` mutates state. -/
def freqTwoCache : TwoQueueCache :=
  { size := 2, recentSize := 0,
    recent := { capacity := 2, items := [] },
    frequent := { capacity := 2, items := [(GoVal.int 1, GoVal.int 1), (GoVal.int 2, GoVal.int 2)] },
    recentEvict := { capacity := 1, items := [] } }

/-! The claim theorems. -/

/-- C1: the claim states that every key `ensureSpace` evicts from `recent`
is inserted into the `recentEvict` ghost store, so that re-adding such a
key lands directly in `frequent`.  The code never inserts into
`recentEvict`: with `New2QParams 2 (1/2) (1/2)`, adding keys 1, 2, 3
evicts key 1 from `recent` (it is in no store afterwards), yet
`recentEvict` stays empty, and the subsequent `Add 1 9` lands in `recent`,
not in `frequent`. -/
theorem c1_evicted_key_lands_in_recent_again :
    New2QParams 2 (1/2) (1/2) = Except.ok cacheTwo
    ∧ c1Mid.recent.Contains (GoVal.int 1) = false
    ∧ c1Mid.frequent.Contains (GoVal.int 1) = false
    ∧ c1Mid.recentEvict.items = []
    ∧ (c1Mid.Add (GoVal.int 1) (GoVal.int 9)).2.frequent.Contains (GoVal.int 1) = false
    ∧ (c1Mid.Add (GoVal.int 1) (GoVal.int 9)).2.recent.Contains (GoVal.int 1) = true
    ∧ (c1Mid.Add (GoVal.int 1) (GoVal.int 9)).2.recentEvict.items = [] :=
  ⟨construct_cacheTwo, by decide, by decide, by decide, by decide, by decide, by decide⟩

/-- C2: the claim states that `Get` on a key present in `recent` (and
absent from `frequent`) promotes it to `frequent` and returns the stored
value with a nil error, so after `New2Q(2, 0.0, 0.0)` and `Put(2, 4)`,
`Get(2)` returns `(4, nil)`.  In the code `lru.Peek` always reports
`ok = false` (its named result is shadowed by the `:=` in the `if`
initializer), so the promotion branch of `Get` is dead: `Get(2)` returns
the nil interface value with the not-found error, the key stays in
`recent`, and `frequent` stays empty. -/
theorem c2_get_after_put_returns_not_found :
    New2Q 2 0 0 = Except.ok cacheTwoDefaults
    ∧ (cacheTwoDefaults.Add (GoVal.int 2) (GoVal.int 4)).2.recent.Contains (GoVal.int 2) = true
    ∧ ((cacheTwoDefaults.Add (GoVal.int 2) (GoVal.int 4)).2.Get (GoVal.int 2)).1 = GoVal.null
    ∧ ((cacheTwoDefaults.Add (GoVal.int 2) (GoVal.int 4)).2.Get (GoVal.int 2)).2.1
        = some "not found in cache"
    ∧ ((cacheTwoDefaults.Add (GoVal.int 2) (GoVal.int 4)).2.Get (GoVal.int 2)).2.2.frequent.items = []
    ∧ ((cacheTwoDefaults.Add (GoVal.int 2) (GoVal.int 4)).2.Get (GoVal.int 2)).2.2.recent.Contains
        (GoVal.int 2) = true :=
  ⟨construct_cacheTwoDefaults, by decide, by decide, by decide, by decide, by decide⟩

/-- C3: capacity invariant — starting from any successfully constructed
cache, after any sequence of public operations the visible size
`recent.Len() + frequent.Len()` is at most the constructed `size`. -/
theorem c3_capacity_invariant (size : Int) (r g : ℚ) (t : TwoQueueCache) (ops : List Op)
    (h : New2QParams size r g = Except.ok t) :
    (run t ops).recent.Len + (run t ops).frequent.Len ≤ size := by
  have hinv := inv_run t ops (inv_new size r g t h)
  have hsz := run_size t ops
  have hts : t.size = size := by
    obtain ⟨ht, _⟩ := new2QParams_ok size r g t h
    rw [ht]
  have htot := hinv.total_le
  simp only [Lru.Len]
  omega

/-- C3 witness: the invariant at a concrete cache and operation list. -/
theorem c3_capacity_invariant_witness :
    (run cacheTwo sampleOps).recent.Len + (run cacheTwo sampleOps).frequent.Len ≤ 2 :=
  c3_capacity_invariant 2 (1/2) (1/2) cacheTwo sampleOps construct_cacheTwo

/-- C4: disjointness — starting from any successfully constructed cache,
after any sequence of public operations every key is in at most one of
`recent`, `frequent` and `recentEvict`. -/
theorem c4_disjointness (size : Int) (r g : ℚ) (t : TwoQueueCache) (ops : List Op) (k : GoVal)
    (h : New2QParams size r g = Except.ok t) :
    ¬(Lru.Contains (run t ops).recent k = true ∧ Lru.Contains (run t ops).frequent k = true)
    ∧ ¬(Lru.Contains (run t ops).recent k = true ∧ Lru.Contains (run t ops).recentEvict k = true)
    ∧ ¬(Lru.Contains (run t ops).frequent k = true ∧ Lru.Contains (run t ops).recentEvict k = true) := by
  have hinv := inv_run t ops (inv_new size r g t h)
  refine ⟨fun hc => hinv.disj k ⟨hc.1, hc.2⟩, fun hc => ?_, fun hc => ?_⟩
  · have hgk := hc.2
    unfold Lru.Contains at hgk
    rw [hinv.ghost_items] at hgk
    exact Bool.false_ne_true hgk
  · have hgk := hc.2
    unfold Lru.Contains at hgk
    rw [hinv.ghost_items] at hgk
    exact Bool.false_ne_true hgk

/-- C4 witness: disjointness at a concrete cache, operation list and key. -/
theorem c4_disjointness_witness :
    ¬(Lru.Contains (run cacheTwo sampleOps).recent (GoVal.int 9) = true
        ∧ Lru.Contains (run cacheTwo sampleOps).frequent (GoVal.int 9) = true)
    ∧ ¬(Lru.Contains (run cacheTwo sampleOps).recent (GoVal.int 9) = true
        ∧ Lru.Contains (run cacheTwo sampleOps).recentEvict (GoVal.int 9) = true)
    ∧ ¬(Lru.Contains (run cacheTwo sampleOps).frequent (GoVal.int 9) = true
        ∧ Lru.Contains (run cacheTwo sampleOps).recentEvict (GoVal.int 9) = true) :=
  c4_disjointness 2 (1/2) (1/2) cacheTwo sampleOps (GoVal.int 9) construct_cacheTwo

/-- C10: the `recentEvict` ghost store stays empty across every sequence
of public operations (nothing ever inserts into it), so the ghost-hit
branch of `Add` — guarded by `recentEvict.Contains` — can never run. -/
theorem c10_ghost_store_always_empty (size : Int) (r g : ℚ) (t : TwoQueueCache) (ops : List Op)
    (h : New2QParams size r g = Except.ok t) :
    (run t ops).recentEvict.items = []
    ∧ ∀ k, Lru.Contains (run t ops).recentEvict k = false := by
  have hinv := inv_run t ops (inv_new size r g t h)
  refine ⟨hinv.ghost_items, fun k => ?_⟩
  unfold Lru.Contains
  rw [hinv.ghost_items]
  rfl

/-- C10 witness: the empty ghost store at a concrete cache and operation
list. -/
theorem c10_ghost_store_always_empty_witness :
    (run cacheTwo sampleOps).recentEvict.items = []
    ∧ ∀ k, Lru.Contains (run cacheTwo sampleOps).recentEvict k = false :=
  c10_ghost_store_always_empty 2 (1/2) (1/2) cacheTwo sampleOps construct_cacheTwo

/-- C5 counterexample: the claim says the `recent` store is allocated with
capacity `recentSize = floor(size * recentRatio)`; at
`New2QParams 4 (1/4) (1/2)` the derived `recentSize` is 1 but `recent` is
allocated with capacity 4 (the full `size`). -/
theorem c5_recent_capacity_counterexample :
    New2QParams 4 (1/4) (1/2) = Except.ok cacheFour
    ∧ cacheFour.recentSize = 1
    ∧ cacheFour.recent.capacity = 4
    ∧ cacheFour.recent.capacity ≠ cacheFour.recentSize :=
  ⟨construct_cacheFour, rfl, rfl, by decide⟩

/-- C5 (amended): at construction, `recent` and `frequent` are both
allocated with capacity `size`; `recentSize = floor(size * recentRatio)`
is stored only as the eviction threshold of `ensureSpace`, and
`recentEvict` is allocated with capacity `floor(size * ghostRatio)`. -/
theorem c5_store_capacities (size : Int) (r g : ℚ) (t : TwoQueueCache)
    (h : New2QParams size r g = Except.ok t) :
    t.recent.capacity = size ∧ t.frequent.capacity = size
    ∧ t.recentSize = ((size : ℚ) * r).floor
    ∧ t.recentEvict.capacity = ((size : ℚ) * g).floor := by
  obtain ⟨ht, _⟩ := new2QParams_ok size r g t h
  rw [ht]
  exact ⟨rfl, rfl, rfl, rfl⟩

/-- C5 witness: the amended capacities at a concrete construction. -/
theorem c5_store_capacities_witness :
    cacheFour.recent.capacity = 4 ∧ cacheFour.frequent.capacity = 4
    ∧ cacheFour.recentSize = ((4 : ℚ) * (1/4)).floor
    ∧ cacheFour.recentEvict.capacity = ((4 : ℚ) * (1/2)).floor :=
  c5_store_capacities 4 (1/4) (1/2) cacheFour construct_cacheFour

/-- C6 counterexample: the claim says construction succeeds for every
`size > 0` with both ratios in `[0, 1]`; yet `New2QParams 1 (1/2) (1/2)`
(valid by that criterion) fails, because the derived ghost capacity
`floor(1 * 1/2) = 0` is rejected by `NewLRU`. -/
theorem c6_valid_params_still_error :
    (0 : Int) < 1 ∧ (0 : ℚ) ≤ 1/2 ∧ (1/2 : ℚ) ≤ 1
    ∧ New2QParams 1 (1/2) (1/2) = Except.error "must provide a positive size" :=
  ⟨by norm_num, by norm_num, by norm_num, construct_sizeOne_err⟩

/-- C6 (amended): `New2QParams size r g` succeeds if and only if
`size > 0`, both ratios lie in `[0, 1]`, and additionally
`floor(size * g) > 0` (otherwise the ghost store's `NewLRU` rejects its
non-positive capacity). -/
theorem c6_construction_ok_iff (size : Int) (r g : ℚ) :
    (∃ t, New2QParams size r g = Except.ok t) ↔
      (0 < size ∧ 0 ≤ r ∧ r ≤ 1 ∧ 0 ≤ g ∧ g ≤ 1 ∧ 0 < ((size : ℚ) * g).floor) := by
  constructor
  · rintro ⟨t, ht⟩
    obtain ⟨_, h⟩ := new2QParams_ok size r g t ht
    exact h
  · rintro ⟨h1, h2, h3, h4, h5, h6⟩
    have hs : ¬(size ≤ 0) := by omega
    have hr : ¬(r < 0 ∨ r > 1) := by
      push_neg
      exact ⟨h2, h3⟩
    have hg : ¬(g < 0 ∨ g > 1) := by
      push_neg
      exact ⟨h4, h5⟩
    have hev : ¬(((size : ℚ) * g).floor ≤ 0) := by omega
    refine ⟨{ size := size, recentSize := ((size : ℚ) * r).floor,
              recent := { capacity := size, items := [] },
              frequent := { capacity := size, items := [] },
              recentEvict := { capacity := ((size : ℚ) * g).floor, items := [] } }, ?_⟩
    simp only [New2QParams, NewLRU, if_neg hs, if_neg hr, if_neg hg, if_neg hev]

/-- C7: the claim says `lru.Remove` returns `true` exactly when the key
was present.  The code deletes a present entry but still returns `false`
(the named result `ok` is shadowed): after `NewLRU(2)` and `Put(1, 1)` the
key is present, `Remove(1)` returns `false`, and the entry is gone
afterwards. -/
theorem c7_remove_always_returns_false :
    Lru.Contains (Lru.Put { capacity := 2, items := [] } (GoVal.int 1) (GoVal.int 1)).1
      (GoVal.int 1) = true
    ∧ (Lru.Remove (Lru.Put { capacity := 2, items := [] } (GoVal.int 1) (GoVal.int 1)).1
        (GoVal.int 1)).2 = false
    ∧ Lru.Contains (Lru.Remove (Lru.Put { capacity := 2, items := [] } (GoVal.int 1)
        (GoVal.int 1)).1 (GoVal.int 1)).1 (GoVal.int 1) = false := by
  decide

/-- C8: LRU eviction order — filling a fresh store of capacity `n` with
`n` distinct keys and then putting one more distinct key evicts exactly
the first-inserted key: `Keys` (oldest to newest) lists the remaining
original keys followed by the new one, and `Get` of the first key reports
not found.  The concrete scenario of the spec (capacity 2;
`put(10,20)`, `put(30,40)`, `put("50",20)`) is the witness below. -/
theorem c8_lru_eviction_order (n : ℕ) (k1 v1 k v : GoVal) (ks : List (GoVal × GoVal))
    (hlen : ks.length + 1 = n)
    (hnd : (keysOf ((k1, v1) :: ks) ++ [k]).Nodup) :
    Lru.Keys (Lru.Put (putAll { capacity := (n : Int), items := [] } ((k1, v1) :: ks)) k v).1
      = keysOf ks ++ [k]
    ∧ (Lru.Get (Lru.Put (putAll { capacity := (n : Int), items := [] } ((k1, v1) :: ks)) k v).1
        k1).2.1 = some "not found in cache" := by
  have hndl : (keysOf ((k1, v1) :: ks)).Nodup := hnd.of_append_left
  have hdisj := List.disjoint_of_nodup_append hnd
  have hkfresh : k ∉ keysOf ((k1, v1) :: ks) := fun hc => hdisj hc (List.mem_singleton_self k)
  have hlenfill : ((([] : List (GoVal × GoVal)).length : Int)) + (((k1, v1) :: ks).length : Int)
      ≤ ((n : Int)) := by
    simp only [List.length_nil, List.length_cons]
    omega
  have hfill := putAll_fill ((k1, v1) :: ks) { capacity := (n : Int), items := [] } hndl
    (fun p _ => rfl) hlenfill
  have hkfalse : hasKey (((k1, v1) :: ks).reverse ++ []) k = false := by
    rw [List.append_nil, hasKey_reverse, Bool.eq_false_iff]
    intro hc
    exact hkfresh ((hasKey_iff_mem_keysOf _ _).mp hc)
  have hge : ((((k1, v1) :: ks).reverse ++ []).length : Int) ≥ ((n : Int)) := by
    simp only [List.append_nil, List.length_reverse, List.length_cons]
    omega
  have hdl : (((k1, v1) :: ks).reverse ++ []).dropLast = ks.reverse := by
    rw [List.append_nil, List.reverse_cons, List.dropLast_concat]
  have hfinal : (Lru.Put (putAll { capacity := (n : Int), items := [] } ((k1, v1) :: ks)) k v).1
      = { capacity := (n : Int), items := (k, v) :: ks.reverse } := by
    rw [hfill, Lru.put_of_fresh_full _ _ _ hkfalse hge, hdl]
  rw [hfinal]
  constructor
  · simp [Lru.Keys, keysOf]
  · have hk1k : ¬(k = k1) := by
      intro hc
      refine hkfresh ?_
      rw [hc, keysOf, List.map_cons]
      exact List.mem_cons_self k1 _
    have hk1ks : hasKey ks k1 = false := by
      rw [keysOf, List.map_cons, List.nodup_cons] at hndl
      rw [Bool.eq_false_iff]
      intro hc
      exact hndl.1 ((hasKey_iff_mem_keysOf _ _).mp hc)
    have hfind : (((k, v) :: ks.reverse).find? fun p => decide (p.1 = k1)) = none := by
      rw [find?_eq_none_iff, hasKey_cons, Bool.or_eq_false_iff]
      refine ⟨decide_eq_false hk1k, ?_⟩
      rw [hasKey_reverse]
      exact hk1ks
    simp [Lru.Get, hfind]

/-- C8 witness: the spec's concrete scenario — capacity 2, `put(10,20)`,
`put(30,40)`, `put("50",20)`; keys are `[30, "50"]` oldest first and
`get(10)` reports not found. -/
theorem c8_lru_eviction_order_witness :
    Lru.Keys (Lru.Put (putAll { capacity := (2 : Int), items := [] }
        [(GoVal.int 10, GoVal.int 20), (GoVal.int 30, GoVal.int 40)])
        (GoVal.str "50") (GoVal.int 20)).1
      = [GoVal.int 30, GoVal.str "50"]
    ∧ (Lru.Get (Lru.Put (putAll { capacity := (2 : Int), items := [] }
        [(GoVal.int 10, GoVal.int 20), (GoVal.int 30, GoVal.int 40)])
        (GoVal.str "50") (GoVal.int 20)).1 (GoVal.int 10)).2.1 = some "not found in cache" :=
  c8_lru_eviction_order 2 (GoVal.int 10) (GoVal.int 20) (GoVal.str "50") (GoVal.int 20)
    [(GoVal.int 30, GoVal.int 40)] (by decide) (by decide)

/-- C9: the claim says every mutating operation — including `Get`, whose
`recent` hit is meant to promote into `frequent` — holds the cache's
exclusive lock for its whole duration.  In the code `Add`, `Remove` and
`Purge` do take the exclusive lock, but `Get` performs no acquisition of
`t.lock` at all, while it still mutates shared state (a `frequent` hit
reorders that store's recency list, as the concrete cache below shows).
So the serialization property claimed for `Get` does not hold in the
code. -/
theorem c9_get_acquires_no_lock :
    lockAcquisition TQMethod.add = LockMode.exclusive
    ∧ lockAcquisition TQMethod.remove = LockMode.exclusive
    ∧ lockAcquisition TQMethod.purge = LockMode.exclusive
    ∧ lockAcquisition TQMethod.get = LockMode.free
    ∧ lockAcquisition TQMethod.get ≠ LockMode.exclusive
    ∧ (freqTwoCache.Get (GoVal.int 2)).2.2 ≠ freqTwoCache :=
  ⟨rfl, rfl, rfl, rfl, by decide, by decide⟩
